import Mathlib

/-!
Shallow embedding of the core of the `ganache` media catalog:

* the tag normalizer (`internal/store/tags.go`: `NormalizeTag`,
  `NormalizeTags`, `TagText`),
* the asset metadata store (`internal/store/store.go`: `CreateAsset`,
  `UpdateAsset`, `DeleteAsset` and their transaction helpers), and
* the content-addressed media manager (`internal/media/media.go`:
  `Save`, `pathFor`, `PathForVariant`).

Strings are modelled over `Char`; the Unicode tables used by the Go
standard library (`unicode.IsSpace`, `unicode.ToLower`) are modelled on
their ASCII fragment, which is the fragment the repository's tests and
fixtures exercise.  The relational backend is modelled as an in-memory
list of rows; `NOW()` is an explicit `now : Nat` parameter.
-/

namespace Ganache

/-- ASCII fragment of Go `unicode.IsSpace` (space, `\t`, `\n`, `\v`, `\f`, `\r`),
the predicate `strings.TrimSpace` and `strings.Fields` split on. -/
def isSpaceChar (c : Char) : Bool :=
  c.toNat = 32 || c.toNat = 9 || c.toNat = 10 || c.toNat = 11 ||
    c.toNat = 12 || c.toNat = 13

/-- ASCII fragment of Go `unicode.ToLower`, as applied rune-wise by
`strings.ToLower`: the letters `A`–`Z` (code points 65–90) shift down to
`a`–`z` by adding 32; every other character is unchanged. -/
def toLowerChar (c : Char) : Char :=
  if 65 ≤ c.toNat ∧ c.toNat ≤ 90 then Char.ofNat (c.toNat + 32) else c

/-- Splitting pass of Go `strings.Fields`: cut the character list at every
whitespace character, keeping the (possibly empty) chunks in between. -/
def splitSp : List Char → List (List Char)
  | [] => []
  | c :: cs =>
    if isSpaceChar c then [] :: splitSp cs
    else
      match splitSp cs with
      | [] => [[c]]
      | w :: ws => (c :: w) :: ws

/-- Go `strings.Fields`: the maximal runs of non-whitespace characters. -/
def fields (l : List Char) : List (List Char) :=
  (splitSp l).filter (fun w => !w.isEmpty)

/-- Go `strings.Join(ws, " ")` at the character level. -/
def joinSpace : List (List Char) → List Char
  | [] => []
  | [w] => w
  | w :: ws => w ++ ' ' :: joinSpace ws

/-- Go `strings.TrimSpace`: drop leading and trailing whitespace. -/
def trimSpace (l : List Char) : List Char :=
  ((l.dropWhile isSpaceChar).reverse.dropWhile isSpaceChar).reverse

/-- `store.NormalizeTag` at the character level: trim, return empty for
whitespace-only input, collapse internal whitespace runs to single spaces,
lowercase. -/
def normTagChars (l : List Char) : List Char :=
  let trimmed := trimSpace l
  if trimmed.isEmpty then []
  else (joinSpace (fields trimmed)).map toLowerChar

/-- `store.NormalizeTag`. -/
def NormalizeTag (s : String) : String :=
  ⟨normTagChars s.data⟩

/-- `store.NormalizeTags`: normalize each tag, drop empties, deduplicate
(the Go code collects into a `map[string]struct\x7b\x7d`), sort ascending
(`sort.Strings`). -/
def NormalizeTags (tags : List String) : List String :=
  List.insertionSort (· ≤ ·) (((tags.map NormalizeTag).filter (fun t => t ≠ "")).dedup)

/-- `store.TagText`: the normalized set joined by single spaces. -/
def TagText (tags : List String) : String :=
  String.intercalate " " (NormalizeTags tags)

/-! ## Asset store (`internal/store/store.go`, `internal/store/models.go`)

The relational backend is modelled as an in-memory list of `asset` rows;
the `asset_tag`/`tag` join tables are folded into each row's `tags` field
(which is exactly what `attachTags` materializes), and `NOW()` is an
explicit `now : Nat` argument.  Transactions roll back on error: every
error path returns the caller's original row list. -/

/-- A row of the `asset` table together with its attached tag names
(`store.Asset`). -/
structure Asset where
  id : Nat
  title : String
  caption : String
  credit : String
  source : String
  usageNotes : String
  width : Int
  height : Int
  byteSize : Int
  mime : String
  originalFilename : String
  sha256 : String
  tagText : String
  createdAt : Nat
  updatedAt : Nat
  deletedAt : Option Nat
  tags : List String
deriving DecidableEq, Repr

/-- `store.AssetCreate`. -/
structure AssetCreate where
  title : String
  caption : String
  credit : String
  source : String
  usageNotes : String
  tags : List String
  width : Int
  height : Int
  byteSize : Int
  mime : String
  originalFilename : String
  sha256 : String
deriving DecidableEq, Repr

/-- `store.AssetUpdate`: a `none` field is absent from the payload, a
`some` field is written as supplied. -/
structure AssetUpdate where
  title : Option String := none
  caption : Option String := none
  credit : Option String := none
  source : Option String := none
  usageNotes : Option String := none
  tags : Option (List String) := none
deriving DecidableEq, Repr

/-- Error sentinels `store.ErrNotFound` / `store.ErrDuplicate`. -/
inductive StoreErr where
  | notFound
  | duplicate
deriving DecidableEq, Repr

/-- The four result shapes of `Store.CreateAsset`'s `(*Asset, error)` pair:
success, `(existing, ErrDuplicate)`, `(nil, ErrDuplicate)` (the fetch after
a uniqueness violation itself failed), and any other error. -/
inductive CreateResult where
  | created (a : Asset)
  | duplicate (existing : Asset)
  | duplicateNoRecord
  | dbError
deriving DecidableEq, Repr

/-- `Store.getAssetByHash`: `SELECT ... FROM asset WHERE sha256 = ?`
(tags attached by `attachTags`; `sql.ErrNoRows` becomes `ErrNotFound`). -/
def getAssetByHash (db : List Asset) (sha : String) : Except StoreErr Asset :=
  match db.find? (fun a => a.sha256 == sha) with
  | some a => .ok a
  | none => .error .notFound

/-- `Store.getAssetByID`: `SELECT ... FROM asset WHERE id = ?`. -/
def getAssetByID (db : List Asset) (id : Nat) : Except StoreErr Asset :=
  match db.find? (fun a => a.id == id) with
  | some a => .ok a
  | none => .error .notFound

/-- `Store.replaceTagsTx`: delete this asset's `asset_tag` rows, re-insert
the given tags, and run `UPDATE asset SET tag_text = ?, updated_at = NOW()
WHERE id = ?` (the Go code runs that `UPDATE` both on the empty-tags early
return and after the inserts). -/
def replaceTags (db : List Asset) (now : Nat) (assetID : Nat)
    (tags : List String) (tagText : String) : List Asset :=
  db.map (fun a =>
    if a.id == assetID then
      { a with tags := tags, tagText := tagText, updatedAt := now }
    else a)

/-- `Store.CreateAsset`: normalize the tags, insert the row inside a
transaction, on a `sha256` uniqueness violation fetch and return the
pre-existing row with `ErrDuplicate`, otherwise replace the tag
associations and re-read the committed row.  `nextId` models
`LastInsertId`. -/
def CreateAsset (db : List Asset) (now nextId : Nat) (inp : AssetCreate) :
    CreateResult × List Asset :=
  let tags := NormalizeTags inp.tags
  let tagText := TagText tags
  if db.any (fun a => a.sha256 == inp.sha256) then
    match getAssetByHash db inp.sha256 with
    | .ok existing => (.duplicate existing, db)
    | .error _ => (.duplicateNoRecord, db)
  else
    let row : Asset :=
      { id := nextId, title := inp.title, caption := inp.caption,
        credit := inp.credit, source := inp.source,
        usageNotes := inp.usageNotes, width := inp.width,
        height := inp.height, byteSize := inp.byteSize, mime := inp.mime,
        originalFilename := inp.originalFilename, sha256 := inp.sha256,
        tagText := tagText, createdAt := now, updatedAt := now,
        deletedAt := none, tags := [] }
    let db2 := replaceTags (db ++ [row]) now nextId tags tagText
    match getAssetByID db2 nextId with
    | .ok a => (.created a, db2)
    | .error _ => (.dbError, db)

/-- True when the payload contributes at least one `SET` clause to the
`UPDATE asset` statement built by `Store.UpdateAsset` (any metadata field,
or `tag_text` when a tag list is supplied). -/
def AssetUpdate.hasSetParts (u : AssetUpdate) : Bool :=
  u.title.isSome || u.caption.isSome || u.credit.isSome ||
    u.source.isSome || u.usageNotes.isSome || u.tags.isSome

/-- Effect of `Store.UpdateAsset`'s `UPDATE asset SET ... , updated_at =
NOW() WHERE id = ? AND deleted_at IS NULL` on a matched row. -/
def applyUpdate (a : Asset) (u : AssetUpdate) (now : Nat) : Asset :=
  { a with
    title := u.title.getD a.title,
    caption := u.caption.getD a.caption,
    credit := u.credit.getD a.credit,
    source := u.source.getD a.source,
    usageNotes := u.usageNotes.getD a.usageNotes,
    tagText := match u.tags with
      | some ts => TagText (NormalizeTags ts)
      | none => a.tagText,
    updatedAt := now }

/-- State of the asset table after `Store.UpdateAsset`'s `UPDATE asset SET
... WHERE id = ? AND deleted_at IS NULL` statement: every matching live
row takes the supplied fields and `updated_at = NOW()`. -/
def updStep1 (db : List Asset) (now id : Nat) (u : AssetUpdate) : List Asset :=
  db.map (fun a =>
    if a.id == id && a.deletedAt.isNone then applyUpdate a u now else a)

/-- State after the optional `replaceTagsTx` call that follows the
`UPDATE` when a tag list was supplied. -/
def updStep2 (db : List Asset) (now id : Nat) (u : AssetUpdate) : List Asset :=
  match u.tags with
  | some ts =>
    replaceTags (updStep1 db now id u) now id (NormalizeTags ts)
      (TagText (NormalizeTags ts))
  | none => updStep1 db now id u

/-- `Store.UpdateAsset`: inside one transaction, run the dynamically built
`UPDATE` when at least one `SET` clause exists (0 affected rows means
`ErrNotFound`), replace the tag set when tags were supplied, then re-read
the row by id.  On any error the transaction rolls back. -/
def UpdateAsset (db : List Asset) (now : Nat) (id : Nat) (u : AssetUpdate) :
    Except StoreErr Asset × List Asset :=
  let step1 : Except StoreErr (List Asset) :=
    if u.hasSetParts then
      if db.any (fun a => a.id == id && a.deletedAt.isNone) then
        .ok (updStep1 db now id u)
      else .error .notFound
    else .ok db
  match step1 with
  | .error e => (.error e, db)
  | .ok db1 =>
    let db2 := match u.tags with
      | some ts =>
        replaceTags db1 now id (NormalizeTags ts) (TagText (NormalizeTags ts))
      | none => db1
    match getAssetByID db2 id with
    | .ok a => (.ok a, db2)
    | .error e => (.error e, db)

/-- `Store.DeleteAsset`: `UPDATE asset SET deleted_at = NOW(), updated_at =
NOW() WHERE id = ? AND deleted_at IS NULL`; 0 affected rows means
`ErrNotFound`. -/
def DeleteAsset (db : List Asset) (now : Nat) (id : Nat) :
    Except StoreErr Unit × List Asset :=
  if db.any (fun a => a.id == id && a.deletedAt.isNone) then
    (.ok (), db.map (fun a =>
      if a.id == id && a.deletedAt.isNone then
        { a with deletedAt := some now, updatedAt := now }
      else a))
  else (.error .notFound, db)

/-! ## Media manager (`internal/media/media.go`)

Uploads are byte streams, modelled as `List Nat` with values below 256.
The Go standard library calls that `Save` makes are modelled as follows:
`io.LimitedReader` as `List.take`, `http.DetectContentType` /
`image.DecodeConfig` / `mime.ExtensionsByType` as components of an
explicit `ImgLib` record (they inspect opaque image formats the
repository does not define), `crypto/sha256` by a stand-in digest that
keeps the one property the repository relies on — a 32-byte output —
and `encoding/hex` by its hex table.  Filesystem effects are reduced to
the list of canonical paths a successful `Save` commits; a Go slice
panic surfaces as the `panicSlice` error of a total function. -/

/-- `media.ErrTooLarge` / `media.ErrInvalidImage`, plus the out-of-range
slice panic of `pathFor` reified as an error value. -/
inductive MediaErr where
  | tooLarge
  | invalidImage
  | panicSlice
deriving DecidableEq, Repr

/-- `media.SaveResult`. -/
structure SaveResult where
  sha256 : String
  byteSize : Nat
  mime : String
  width : Int
  height : Int
  ext : String
deriving DecidableEq, Repr

/-- The standard-library image helpers `Manager.Save` calls, as an
explicit environment: `http.DetectContentType` on the peeked prefix,
`image.DecodeConfig` returning `(width, height, format)` or failing, and
`mime.ExtensionsByType`. -/
structure ImgLib where
  detectContentType : List Nat → String
  decodeConfig : List Nat → Option (Int × Int × String)
  extensionsByType : String → List String

/-- Go string slicing `s[a:b]` prefix: the first `n` bytes (ASCII bytes
and characters coincide on the hex digests this code slices). -/
def strTake (s : String) (n : Nat) : String :=
  ⟨s.data.take n⟩

/-- Go string slicing suffix `s[n:]`. -/
def strDrop (s : String) (n : Nat) : String :=
  ⟨s.data.drop n⟩

/-- `filepath.Join` on already-clean components: interleave `/`. -/
def joinPath : List String → String
  | [] => ""
  | [p] => p
  | p :: ps => p ++ "/" ++ joinPath ps

/-- `Manager.pathFor`: two-level sharded layout under `root`.  The Go code
slices `sha[0:2]` and `sha[2:4]` without a length guard; for a digest
shorter than 4 bytes that slice panics, which the total model reports as
`none`. -/
def pathFor (root sha variant ext : String) : Option String :=
  if sha.length < 4 then none
  else
    let shard1 := strTake sha 2
    let shard2 := strTake (strDrop sha 2) 2
    let filename := sha ++ ext
    some (match variant with
      | "original" => joinPath [root, "original", shard1, shard2, filename]
      | "content" => joinPath [root, "content", shard1, shard2, sha ++ ".webp"]
      | "thumb" => joinPath [root, "thumb", shard1, shard2, sha ++ ".webp"]
      | other => joinPath [root, other, shard1, shard2, filename])

/-- `Manager.PathForVariant`, the exported wrapper around `pathFor`. -/
def PathForVariant (root sha variant ext : String) : Option String :=
  pathFor root sha variant ext

/-- The hex table `"0123456789abcdef"` of `encoding/hex`. -/
def hexDigit (n : Nat) : Char :=
  match n with
  | 0 => '0' | 1 => '1' | 2 => '2' | 3 => '3' | 4 => '4'
  | 5 => '5' | 6 => '6' | 7 => '7' | 8 => '8' | 9 => '9'
  | 10 => 'a' | 11 => 'b' | 12 => 'c' | 13 => 'd' | 14 => 'e'
  | 15 => 'f'
  | _ => '0'

/-- `hex.EncodeToString` character list: high nibble then low nibble per
byte. -/
def hexEncodeList : List Nat → List Char
  | [] => []
  | b :: bs => hexDigit (b / 16 % 16) :: hexDigit (b % 16) :: hexEncodeList bs

/-- `hex.EncodeToString`. -/
def hexEncode (bs : List Nat) : String :=
  ⟨hexEncodeList bs⟩

/-- Model of `crypto/sha256`: the repository treats the hash as an opaque
32-byte digest of the streamed bytes, so only that shape is modelled (a
deterministic 32-byte mixing stand-in, not the SHA-256 compression
function, which lives outside this repository). -/
def sha256Sum (data : List Nat) : List Nat :=
  (List.range 32).map
    (fun i => data.foldl (fun acc b => (acc * 31 + b + 1) % 256) i % 256)

/-- `filepath.Ext` scan over the reversed final path element: the chunk up
to and including the first `.` seen from the right, cut off by any `/`. -/
def extRev : List Char → Option (List Char)
  | [] => none
  | c :: cs =>
    if c = '/' then none
    else if c = '.' then some [c]
    else
      match extRev cs with
      | none => none
      | some e => some (c :: e)

/-- `filepath.Ext`: the suffix beginning at the final dot in the final
slash-separated element; empty if there is no dot. -/
def goExt (filename : String) : String :=
  match extRev filename.data.reverse with
  | some p => ⟨p.reverse⟩
  | none => ""

/-- `strings.ToLower`. -/
def strLower (s : String) : String :=
  ⟨s.data.map toLowerChar⟩

/-- Extension resolution step of `Manager.Save`: prefer the lowercased
filename extension, else the first extension registered for the sniffed
mime type, else fall back to the decoded format name. -/
def resolveExt (lib : ImgLib) (mimeType filename fmt : String) : String :=
  let ext0 := strLower (goExt filename)
  let ext1 :=
    if ext0 = "" then
      match lib.extensionsByType mimeType with
      | [] => ""
      | e :: _ => e
    else ext0
  if ext1 = "" then "." ++ fmt else ext1

/-- `Manager.Save`: stream at most `maxBytes + 1` bytes through the
digest and the temp file, reject `TooLarge` when more than `maxBytes`
arrived, decode the image header (`InvalidImage` on failure, non-positive
dimensions, or a pixel count above `maxPixels`), resolve the cosmetic
extension (filename, then sniffed mime type, then decoded format), and
commit the original plus the two `.webp` variants to their canonical
paths.  Returns the `SaveResult` and the committed paths; every error
path commits nothing (the temp file is discarded). -/
def Save (lib : ImgLib) (root : String) (data : List Nat) (filename : String)
    (maxBytes : Nat) (maxPixels : Int) :
    Except MediaErr (SaveResult × List String) :=
  let limited := data.take (maxBytes + 1)
  let mimeType := lib.detectContentType (limited.take 8192)
  let written := limited.length
  if written > maxBytes then .error .tooLarge
  else
    match lib.decodeConfig limited with
    | none => .error .invalidImage
    | some (w, h, format) =>
      if w ≤ 0 ∨ h ≤ 0 ∨ w * h > maxPixels then .error .invalidImage
      else
        let ext := resolveExt lib mimeType filename format
        let shaHex := hexEncode (sha256Sum limited)
        match pathFor root shaHex "original" ext,
            pathFor root shaHex "content" ".webp",
            pathFor root shaHex "thumb" ".webp" with
        | some origPath, some contentPath, some thumbPath =>
          .ok ({ sha256 := shaHex, byteSize := written, mime := mimeType,
                 width := w, height := h, ext := ext },
               [origPath, contentPath, thumbPath])
        | _, _, _ => .error .panicSlice

deriving instance DecidableEq for Except

/-! ## Concrete fixtures used by witnesses and counterexamples -/

/-- A concrete image-library environment: every stream sniffs as PNG, a
nonempty stream decodes as a 2×3 PNG header, and the PNG mime type maps
to the `.png` extension. -/
def pngLib : ImgLib :=
  { detectContentType := fun _ => "image/png",
    decodeConfig := fun d => if d.length = 0 then none else some (2, 3, "png"),
    extensionsByType := fun _ => [".png"] }

/-- A 64-character hex digest. -/
def shaFix : String :=
  "0123456789abcdef0123456789abcdef0123456789abcdef0123456789abcdef"

/-- A live asset row. -/
def assetFix : Asset :=
  { id := 1, title := "Test", caption := "", credit := "", source := "",
    usageNotes := "", width := 10, height := 10, byteSize := 42,
    mime := "image/png", originalFilename := "t.png", sha256 := shaFix,
    tagText := "", createdAt := 0, updatedAt := 0, deletedAt := none,
    tags := [] }

/-- A soft-deleted asset row. -/
def assetDelFix : Asset :=
  { assetFix with
    id := 2,
    sha256 := "fedcba9876543210fedcba9876543210fedcba9876543210fedcba9876543210",
    deletedAt := some 5, updatedAt := 5 }

/-- A creation payload whose content hash collides with `assetFix`. -/
def createFix : AssetCreate :=
  { title := "Other", caption := "", credit := "", source := "",
    usageNotes := "", tags := [], width := 10, height := 10, byteSize := 42,
    mime := "image/png", originalFilename := "u.png", sha256 := shaFix }

/-- The empty partial-update payload: no fields, no tags. -/
def emptyUpdateFix : AssetUpdate := {}

/-- A partial-update payload that re-supplies `assetFix`'s current title
unchanged. -/
def sameTitleUpdateFix : AssetUpdate := { title := some assetFix.title }

/-- The digest of the one-byte stream `[9]` under the modelled hash. -/
def shaOfNine : String := hexEncode (sha256Sum [9])

/-- The `SaveResult` of saving `[9]` through `pngLib`. -/
def saveResFix : SaveResult :=
  { sha256 := shaOfNine, byteSize := 1, mime := "image/png", width := 2,
    height := 3, ext := ".png" }

/-- The canonical paths committed when saving `[9]` through `pngLib`. -/
def savePathsFix : List String :=
  [joinPath ["r", "original", strTake shaOfNine 2,
     strTake (strDrop shaOfNine 2) 2, shaOfNine ++ ".png"],
   joinPath ["r", "content", strTake shaOfNine 2,
     strTake (strDrop shaOfNine 2) 2, shaOfNine ++ ".webp"],
   joinPath ["r", "thumb", strTake shaOfNine 2,
     strTake (strDrop shaOfNine 2) 2, shaOfNine ++ ".webp"]]

/-! ## Shared lemmas -/

theorem length_hexEncodeList (bs : List Nat) :
    (hexEncodeList bs).length = 2 * bs.length := by
  induction bs with
  | nil => rfl
  | cons b bs ih => simp [hexEncodeList, ih]; ring

theorem length_sha256Sum (data : List Nat) : (sha256Sum data).length = 32 := by
  simp [sha256Sum]

theorem length_hexEncode (bs : List Nat) : (hexEncode bs).length = 2 * bs.length := by
  show (hexEncodeList bs).length = 2 * bs.length
  exact length_hexEncodeList bs

theorem hexDigit_mem_table (n : Nat) : hexDigit n ∈ "0123456789abcdef".data := by
  unfold hexDigit
  split <;> decide

theorem mem_hexEncodeList (bs : List Nat) (c : Char) (hc : c ∈ hexEncodeList bs) :
    c ∈ "0123456789abcdef".data := by
  induction bs with
  | nil => simp [hexEncodeList] at hc
  | cons b bs ih =>
    simp only [hexEncodeList, List.mem_cons] at hc
    rcases hc with h | h | h
    · exact h ▸ hexDigit_mem_table _
    · exact h ▸ hexDigit_mem_table _
    · exact ih h

/-! ## C2: deterministic variant path layout -/

/-- C2: for every 64-character digest `sha`, extension `ext` and variant
kind among `original`, `content`, `thumb`, the derived path is
`root/<kind>/<sha[0:2]>/<sha[2:4]>/<sha>.<suffix>` where the suffix is the
supplied extension for `original` and the fixed `.webp` for the two
derived variants. -/
theorem pathForVariant_layout (root sha ext kind : String)
    (hlen : sha.length = 64)
    (hkind : kind = "original" ∨ kind = "content" ∨ kind = "thumb") :
    PathForVariant root sha kind ext =
      some (root ++ "/" ++ kind ++ "/" ++ strTake sha 2 ++ "/" ++
        strTake (strDrop sha 2) 2 ++ "/" ++ sha ++
        (if kind = "original" then ext else ".webp")) := by
  have h4 : ¬ sha.length < 4 := by omega
  rcases hkind with h | h | h <;> subst h <;>
    (simp [PathForVariant, pathFor, joinPath, h4, String.append_assoc]; try rfl)

/-- C2 witness at a concrete digest, extension and root for all three
variant kinds. -/
theorem pathForVariant_layout_witness :
    PathForVariant "root" shaFix "original" ".png" =
      some ("root" ++ "/" ++ "original" ++ "/" ++ strTake shaFix 2 ++ "/" ++
        strTake (strDrop shaFix 2) 2 ++ "/" ++ shaFix ++ ".png") ∧
    PathForVariant "root" shaFix "thumb" ".png" =
      some ("root" ++ "/" ++ "thumb" ++ "/" ++ strTake shaFix 2 ++ "/" ++
        strTake (strDrop shaFix 2) 2 ++ "/" ++ shaFix ++ ".webp") := by
  constructor
  · exact pathForVariant_layout "root" shaFix ".png" "original" (by decide)
      (Or.inl rfl)
  · exact pathForVariant_layout "root" shaFix ".png" "thumb" (by decide)
      (Or.inr (Or.inr rfl))

/-! ## Save lemmas shared by C3, C4 and C10 -/

theorem pathFor_isSome (root sha variant ext : String) (h : 4 ≤ sha.length) :
    ∃ p, pathFor root sha variant ext = some p := by
  rw [pathFor, if_neg (Nat.not_lt.mpr h)]
  exact ⟨_, rfl⟩

theorem shaHex_length (data : List Nat) :
    (hexEncode (sha256Sum data)).length = 64 := by
  rw [length_hexEncode, length_sha256Sum]

theorem save_tooLarge_of_lt (lib : ImgLib) (root : String) (data : List Nat)
    (filename : String) (maxBytes : Nat) (maxPixels : Int)
    (h : maxBytes < data.length) :
    Save lib root data filename maxBytes maxPixels = .error .tooLarge := by
  have hl : (data.take (maxBytes + 1)).length = maxBytes + 1 := by
    rw [List.length_take]; omega
  simp only [Save, hl]
  simp

theorem save_of_le (lib : ImgLib) (root : String) (data : List Nat)
    (filename : String) (maxBytes : Nat) (maxPixels : Int)
    (hsize : data.length ≤ maxBytes) :
    Save lib root data filename maxBytes maxPixels =
      match lib.decodeConfig data with
      | none => .error .invalidImage
      | some (w, h, format) =>
        if w ≤ 0 ∨ h ≤ 0 ∨ w * h > maxPixels then .error .invalidImage
        else
          let ext := resolveExt lib (lib.detectContentType (data.take 8192))
            filename format
          let shaHex := hexEncode (sha256Sum data)
          match pathFor root shaHex "original" ext,
              pathFor root shaHex "content" ".webp",
              pathFor root shaHex "thumb" ".webp" with
          | some origPath, some contentPath, some thumbPath =>
            .ok ({ sha256 := shaHex, byteSize := data.length,
                   mime := lib.detectContentType (data.take 8192),
                   width := w, height := h, ext := ext },
                 [origPath, contentPath, thumbPath])
          | _, _, _ => .error .panicSlice := by
  have htake : data.take (maxBytes + 1) = data := List.take_of_length_le (by omega)
  have hif : ¬ ((data.take (maxBytes + 1)).length > maxBytes) := by
    rw [htake]; omega
  simp only [Save, htake, if_neg hif]
  rw [if_neg (by omega : ¬ data.length > maxBytes)]

theorem save_ok_of (lib : ImgLib) (root : String) (data : List Nat)
    (filename : String) (maxBytes : Nat) (maxPixels : Int) (w h : Int)
    (fmt : String) (hsize : data.length ≤ maxBytes)
    (hdec : lib.decodeConfig data = some (w, h, fmt))
    (hok : ¬(w ≤ 0 ∨ h ≤ 0 ∨ w * h > maxPixels)) :
    ∃ r paths, Save lib root data filename maxBytes maxPixels = .ok (r, paths) ∧
      r.sha256 = hexEncode (sha256Sum data) ∧ r.byteSize = data.length ∧
      r.width = w ∧ r.height = h := by
  have h64 : 4 ≤ (hexEncode (sha256Sum data)).length := by
    rw [shaHex_length]; omega
  obtain ⟨p0, hp0⟩ := pathFor_isSome root _ "original"
    (resolveExt lib (lib.detectContentType (data.take 8192)) filename fmt) h64
  obtain ⟨p1, hp1⟩ := pathFor_isSome root _ "content" ".webp" h64
  obtain ⟨p2, hp2⟩ := pathFor_isSome root _ "thumb" ".webp" h64
  rw [save_of_le lib root data filename maxBytes maxPixels hsize, hdec]
  simp only [if_neg hok, hp0, hp1, hp2]
  exact ⟨_, _, rfl, rfl, rfl, rfl, rfl⟩

theorem save_invalid_of_none (lib : ImgLib) (root : String) (data : List Nat)
    (filename : String) (maxBytes : Nat) (maxPixels : Int)
    (hsize : data.length ≤ maxBytes) (hdec : lib.decodeConfig data = none) :
    Save lib root data filename maxBytes maxPixels = .error .invalidImage := by
  rw [save_of_le lib root data filename maxBytes maxPixels hsize, hdec]

theorem save_invalid_of_bad (lib : ImgLib) (root : String) (data : List Nat)
    (filename : String) (maxBytes : Nat) (maxPixels : Int) (w h : Int)
    (fmt : String) (hsize : data.length ≤ maxBytes)
    (hdec : lib.decodeConfig data = some (w, h, fmt))
    (hbad : w ≤ 0 ∨ h ≤ 0 ∨ w * h > maxPixels) :
    Save lib root data filename maxBytes maxPixels = .error .invalidImage := by
  rw [save_of_le lib root data filename maxBytes maxPixels hsize, hdec]
  simp [hbad]

/-! ## C3: maxBytes boundary -/

/-- C3: `Save` fails with `TooLarge` exactly when the stream holds more
than `maxBytes` bytes (a stream of exactly `maxBytes` bytes passes the
size check), and a successful save commits the full untruncated byte
count. -/
theorem save_maxBytes_boundary (lib : ImgLib) (root : String) (data : List Nat)
    (filename : String) (maxBytes : Nat) (maxPixels : Int) :
    (Save lib root data filename maxBytes maxPixels = .error .tooLarge ↔
      maxBytes < data.length) ∧
    (∀ res, Save lib root data filename maxBytes maxPixels = .ok res →
      data.length ≤ maxBytes ∧ res.1.byteSize = data.length) := by
  by_cases hb : maxBytes < data.length
  · have hs := save_tooLarge_of_lt lib root data filename maxBytes maxPixels hb
    refine ⟨⟨fun _ => hb, fun _ => hs⟩, ?_⟩
    intro res hres
    rw [hs] at hres
    cases hres
  · push_neg at hb
    have hnot : Save lib root data filename maxBytes maxPixels ≠
        .error .tooLarge := by
      cases hdec : lib.decodeConfig data with
      | none =>
        rw [save_invalid_of_none lib root data filename maxBytes maxPixels hb hdec]
        simp
      | some t =>
        obtain ⟨w, h, fmt⟩ := t
        by_cases hbad : w ≤ 0 ∨ h ≤ 0 ∨ w * h > maxPixels
        · rw [save_invalid_of_bad lib root data filename maxBytes maxPixels
            w h fmt hb hdec hbad]
          simp
        · obtain ⟨r, paths, hsave, -⟩ := save_ok_of lib root data filename
            maxBytes maxPixels w h fmt hb hdec hbad
          rw [hsave]
          simp
    refine ⟨⟨fun hL => absurd hL hnot, fun hc => absurd hc (by omega)⟩, ?_⟩
    intro res hres
    refine ⟨hb, ?_⟩
    cases hdec : lib.decodeConfig data with
    | none =>
      rw [save_invalid_of_none lib root data filename maxBytes maxPixels hb hdec]
        at hres
      cases hres
    | some t =>
      obtain ⟨w, h, fmt⟩ := t
      by_cases hbad : w ≤ 0 ∨ h ≤ 0 ∨ w * h > maxPixels
      · rw [save_invalid_of_bad lib root data filename maxBytes maxPixels
          w h fmt hb hdec hbad] at hres
        cases hres
      · obtain ⟨r, paths, hsave, -, hbytes, -⟩ := save_ok_of lib root data
          filename maxBytes maxPixels w h fmt hb hdec hbad
        rw [hsave] at hres
        cases hres
        exact hbytes

/-- C3 witness: a 3-byte stream over a 2-byte limit is rejected as too
large; a 2-byte stream over the same limit is not. -/
theorem save_maxBytes_boundary_witness :
    Save pngLib "r" [9, 9, 9] "x.png" 2 6 = .error .tooLarge ∧
    Save pngLib "r" [9, 9] "x.png" 2 6 ≠ .error .tooLarge :=
  ⟨(save_maxBytes_boundary pngLib "r" [9, 9, 9] "x.png" 2 6).1.mpr (by decide),
   fun hc => absurd
     ((save_maxBytes_boundary pngLib "r" [9, 9] "x.png" 2 6).1.mp hc)
     (by decide)⟩

/-! ## C4: InvalidImage characterization -/

/-- C4: within the size limit, `Save` fails with `InvalidImage` exactly
when header decoding fails, a decoded dimension is non-positive, or the
pixel count exceeds `maxPixels` (so exactly `maxPixels` pixels pass). -/
theorem save_invalidImage_iff (lib : ImgLib) (root : String) (data : List Nat)
    (filename : String) (maxBytes : Nat) (maxPixels : Int)
    (hsize : data.length ≤ maxBytes) :
    Save lib root data filename maxBytes maxPixels = .error .invalidImage ↔
      lib.decodeConfig data = none ∨
      ∃ w h fmt, lib.decodeConfig data = some (w, h, fmt) ∧
        (w ≤ 0 ∨ h ≤ 0 ∨ maxPixels < w * h) := by
  constructor
  · intro hInv
    cases hdec : lib.decodeConfig data with
    | none => exact Or.inl rfl
    | some t =>
      obtain ⟨w, h, fmt⟩ := t
      by_cases hbad : w ≤ 0 ∨ h ≤ 0 ∨ w * h > maxPixels
      · exact Or.inr ⟨w, h, fmt, rfl, hbad⟩
      · obtain ⟨r, paths, hsave, -⟩ := save_ok_of lib root data filename
          maxBytes maxPixels w h fmt hsize hdec hbad
        rw [hsave] at hInv
        cases hInv
  · intro hcase
    rcases hcase with hnone | ⟨w, h, fmt, hdec, hbad⟩
    · exact save_invalid_of_none lib root data filename maxBytes maxPixels
        hsize hnone
    · exact save_invalid_of_bad lib root data filename maxBytes maxPixels
        w h fmt hsize hdec hbad

/-- C4 witness: an undecodable (empty) stream is rejected; a 2×3 header
against `maxPixels = 5` is rejected while `maxPixels = 6` is not. -/
theorem save_invalidImage_iff_witness :
    Save pngLib "r" [] "x.png" 5 6 = .error .invalidImage ∧
    Save pngLib "r" [9] "x.png" 5 5 = .error .invalidImage ∧
    Save pngLib "r" [9] "x.png" 5 6 ≠ .error .invalidImage :=
  ⟨(save_invalidImage_iff pngLib "r" [] "x.png" 5 6 (by decide)).mpr
      (Or.inl (by decide)),
   (save_invalidImage_iff pngLib "r" [9] "x.png" 5 5 (by decide)).mpr
      (Or.inr ⟨2, 3, "png", by decide, by decide⟩),
   fun hc => by
     rcases (save_invalidImage_iff pngLib "r" [9] "x.png" 5 6 (by decide)).mp hc
       with hnone | ⟨w, h, fmt, hdec, hbad⟩
     · exact absurd hnone (by decide)
     · have hw : w = 2 ∧ h = 3 := by
         have := hdec
         simp [pngLib] at this
         exact ⟨this.1.symm, this.2.1.symm⟩
       rcases hw with ⟨rfl, rfl⟩
       omega⟩

/-! ## C10: slicing precondition of PathForVariant -/

/-- C10: `PathForVariant` slices `sha[0:2]` and `sha[2:4]` with no length
guard, so any digest shorter than 4 characters hits the panic branch
(`none` in the total model) while any digest of length at least 4 yields a
path; every digest a successful `Save` produces is a 64-character
lowercase-hex string, satisfying the precondition. -/
theorem pathForVariant_slice_guard :
    (∀ root sha variant ext : String, sha.length < 4 →
        PathForVariant root sha variant ext = none) ∧
    (∀ root sha variant ext : String, 4 ≤ sha.length →
        (PathForVariant root sha variant ext).isSome = true) ∧
    (∀ (lib : ImgLib) (root : String) (data : List Nat) (filename : String)
        (maxBytes : Nat) (maxPixels : Int) res,
        Save lib root data filename maxBytes maxPixels = .ok res →
        res.1.sha256.length = 64 ∧
        ∀ c ∈ res.1.sha256.data, c ∈ "0123456789abcdef".data) := by
  refine ⟨?_, ?_, ?_⟩
  · intro root sha variant ext h
    simp [PathForVariant, pathFor, h]
  · intro root sha variant ext h
    obtain ⟨p, hp⟩ := pathFor_isSome root sha variant ext h
    simp [PathForVariant, hp]
  · intro lib root data filename maxBytes maxPixels res hres
    by_cases hb : maxBytes < data.length
    · rw [save_tooLarge_of_lt lib root data filename maxBytes maxPixels hb]
        at hres
      cases hres
    · push_neg at hb
      cases hdec : lib.decodeConfig data with
      | none =>
        rw [save_invalid_of_none lib root data filename maxBytes maxPixels
          hb hdec] at hres
        cases hres
      | some t =>
        obtain ⟨w, h, fmt⟩ := t
        by_cases hbad : w ≤ 0 ∨ h ≤ 0 ∨ w * h > maxPixels
        · rw [save_invalid_of_bad lib root data filename maxBytes maxPixels
            w h fmt hb hdec hbad] at hres
          cases hres
        · obtain ⟨r, paths, hsave, hsha, -, -, -⟩ := save_ok_of lib root data
            filename maxBytes maxPixels w h fmt hb hdec hbad
          rw [hsave] at hres
          cases hres
          constructor
          · rw [hsha]
            exact shaHex_length data
          · intro c hc
            rw [hsha] at hc
            exact mem_hexEncodeList _ c hc

/-- C10 witness: a 3-character digest hits the guard, a 64-character one
does not, and the digest of a concrete successful save has 64 hex
characters. -/
theorem pathForVariant_slice_guard_witness :
    PathForVariant "r" "abc" "original" ".png" = none ∧
    (PathForVariant "r" shaFix "original" ".png").isSome = true ∧
    saveResFix.sha256.length = 64 :=
  ⟨pathForVariant_slice_guard.1 "r" "abc" "original" ".png" (by decide),
   pathForVariant_slice_guard.2.1 "r" shaFix "original" ".png" (by decide),
   (pathForVariant_slice_guard.2.2 pngLib "r" [9] "x.png" 5 6
     (saveResFix, savePathsFix) (by decide)).1⟩

/-! ## C1: duplicate-hash create returns the existing record -/

/-- C1: when a create call's `sha256` collides with a persisted row, the
insert fails on the uniqueness constraint, no row is added, and the call
returns the full pre-existing record together with the `ErrDuplicate`
signal — never a bare error. -/
theorem createAsset_duplicate (db : List Asset) (now nextId : Nat)
    (inp : AssetCreate) (hdup : ∃ a ∈ db, a.sha256 = inp.sha256) :
    ∃ existing, (CreateAsset db now nextId inp).1 = .duplicate existing ∧
      existing ∈ db ∧ existing.sha256 = inp.sha256 ∧
      (CreateAsset db now nextId inp).2 = db := by
  obtain ⟨a, ha, hsha⟩ := hdup
  have hany : db.any (fun x => x.sha256 == inp.sha256) = true := by
    rw [List.any_eq_true]
    exact ⟨a, ha, by simp [hsha]⟩
  cases hfind : db.find? (fun x => x.sha256 == inp.sha256) with
  | none =>
    exfalso
    have := List.find?_eq_none.mp hfind a ha
    simp [hsha] at this
  | some b =>
    have hb_mem : b ∈ db := List.mem_of_find?_eq_some hfind
    have hb_sha : b.sha256 = inp.sha256 := by
      have := List.find?_some hfind
      simpa using this
    refine ⟨b, ?_, hb_mem, hb_sha, ?_⟩ <;>
      simp [CreateAsset, hany, getAssetByHash, hfind]

/-- C1 witness: re-creating `assetFix`'s content returns `assetFix` itself
with the duplicate signal and leaves the table unchanged. -/
theorem createAsset_duplicate_witness :
    (CreateAsset [assetFix] 3 2 createFix).1 = .duplicate assetFix ∧
    (CreateAsset [assetFix] 3 2 createFix).2 = [assetFix] := by
  obtain ⟨e, h1, h2, h3, h4⟩ :=
    createAsset_duplicate [assetFix] 3 2 createFix ⟨assetFix, by simp, rfl⟩
  have he : e = assetFix := by simpa using h2
  exact ⟨he ▸ h1, h4⟩

/-! ## C8: soft delete is not idempotent -/

/-- C8: the first delete of a live id succeeds and stamps `deletedAt` and
`updatedAt` with the current time on the matching non-deleted rows; a
delete of an absent or already-deleted id — in particular any second
delete of the same id — fails with `NotFound` and changes nothing. -/
theorem deleteAsset_soft_delete (db : List Asset) (now now2 id : Nat) :
    ((∃ a ∈ db, a.id = id ∧ a.deletedAt = none) →
      (DeleteAsset db now id).1 = .ok () ∧
      (∀ a ∈ db, a.id = id → a.deletedAt = none →
        { a with deletedAt := some now, updatedAt := now } ∈
          (DeleteAsset db now id).2) ∧
      (DeleteAsset (DeleteAsset db now id).2 now2 id).1 = .error .notFound) ∧
    ((¬ ∃ a ∈ db, a.id = id ∧ a.deletedAt = none) →
      (DeleteAsset db now id).1 = .error .notFound ∧
      (DeleteAsset db now id).2 = db) := by
  constructor
  · rintro ⟨a, ha, haid, hadel⟩
    have hany : db.any (fun x => x.id == id && x.deletedAt.isNone) = true := by
      rw [List.any_eq_true]
      exact ⟨a, ha, by simp [haid, hadel]⟩
    have hres : DeleteAsset db now id =
        (.ok (), db.map (fun x =>
          if x.id == id && x.deletedAt.isNone then
            { x with deletedAt := some now, updatedAt := now }
          else x)) := by
      rw [DeleteAsset, if_pos hany]
    refine ⟨by rw [hres], ?_, ?_⟩
    · intro b hb hbid hbdel
      rw [hres]
      have himg : ({ b with deletedAt := some now, updatedAt := now } : Asset) =
          (fun x : Asset =>
            if x.id == id && x.deletedAt.isNone then
              { x with deletedAt := some now, updatedAt := now }
            else x) b := by
        simp [hbid, hbdel]
      rw [himg]
      exact List.mem_map_of_mem _ hb
    · have hnone : ((DeleteAsset db now id).2).any
          (fun x => x.id == id && x.deletedAt.isNone) = false := by
        rw [hres, List.any_map, List.any_eq_false]
        intro c hc
        by_cases hcond : (c.id == id && c.deletedAt.isNone) = true
        · simp only [Function.comp, if_pos hcond]
          simp
        · simp only [Function.comp, if_neg hcond]
          simpa using hcond
      rw [DeleteAsset, if_neg (by rw [hnone]; simp)]
  · intro hno
    have hany : db.any (fun x => x.id == id && x.deletedAt.isNone) = false := by
      rw [List.any_eq_false]
      intro b hb
      by_cases h1 : b.id = id
      · by_cases h2 : b.deletedAt = none
        · exact absurd ⟨b, hb, h1, h2⟩ hno
        · simp [h2]
      · simp [h1]
    rw [DeleteAsset, if_neg (by rw [hany]; simp)]
    exact ⟨rfl, rfl⟩

/-- C8 witness: deleting the live fixture succeeds, a second delete of the
same id reports not-found, and deleting an absent id reports not-found. -/
theorem deleteAsset_soft_delete_witness :
    (DeleteAsset [assetFix] 7 1).1 = .ok () ∧
    (DeleteAsset (DeleteAsset [assetFix] 7 1).2 8 1).1 = .error .notFound ∧
    (DeleteAsset [assetFix] 7 2).1 = .error .notFound := by
  obtain ⟨hsucc, -, hsecond⟩ :=
    (deleteAsset_soft_delete [assetFix] 7 8 1).1 ⟨assetFix, by simp, rfl, rfl⟩
  obtain ⟨habsent, -⟩ := (deleteAsset_soft_delete [assetFix] 7 8 2).2 (by decide)
  exact ⟨hsucc, hsecond, habsent⟩

/-! ## UpdateAsset reduction lemmas shared by C6 and C7 -/

theorem tags_none_of_not_set (u : AssetUpdate) (h : u.hasSetParts = false) :
    u.tags = none := by
  unfold AssetUpdate.hasSetParts at h
  simp only [Bool.or_eq_false_iff] at h
  exact Option.not_isSome_iff_eq_none.mp (by simp [h.2])

theorem updateAsset_no_set (db : List Asset) (now id : Nat) (u : AssetUpdate)
    (hset : u.hasSetParts = false) :
    UpdateAsset db now id u =
      match getAssetByID db id with
      | .ok a => (.ok a, db)
      | .error e => (.error e, db) := by
  have htags := tags_none_of_not_set u hset
  simp only [UpdateAsset, hset, htags]
  simp

theorem updateAsset_set_no_live (db : List Asset) (now id : Nat)
    (u : AssetUpdate) (hset : u.hasSetParts = true)
    (hno : db.any (fun a => a.id == id && a.deletedAt.isNone) = false) :
    UpdateAsset db now id u = (.error .notFound, db) := by
  simp only [UpdateAsset, hset, hno]
  simp

theorem updateAsset_set_live (db : List Asset) (now id : Nat)
    (u : AssetUpdate) (hset : u.hasSetParts = true)
    (hany : db.any (fun a => a.id == id && a.deletedAt.isNone) = true) :
    UpdateAsset db now id u =
      match getAssetByID (updStep2 db now id u) id with
      | .ok a => (.ok a, updStep2 db now id u)
      | .error e => (.error e, db) := by
  simp only [UpdateAsset, hset, hany, updStep2]
  simp

/-! ## C6: NotFound behavior of partial update -/

/-- C6 counterexample: the claim says an update whose id matches only a
soft-deleted row fails with `NotFound` even when the payload is empty; on
the code, an empty payload skips the guarded `UPDATE` and the final
re-read has no `deleted_at IS NULL` filter, so the call succeeds and
returns the soft-deleted row. -/
theorem updateAsset_deleted_empty_counterexample :
    (¬ ∃ a ∈ [assetDelFix], a.id = 2 ∧ a.deletedAt = none) ∧
    emptyUpdateFix.hasSetParts = false ∧
    (UpdateAsset [assetDelFix] 9 2 emptyUpdateFix).1 = .ok assetDelFix := by
  refine ⟨by decide, rfl, by decide⟩

/-- C6 (amended): an update supplying at least one field or a tag list
fails with `NotFound` when no non-deleted row matches the id; an update on
an id with no row at all fails with `NotFound` for every payload; but an
empty payload on an id whose row is soft-deleted succeeds, returning that
row.  Every failing update leaves the table unchanged. -/
theorem updateAsset_notFound_behavior (db : List Asset) (now id : Nat)
    (u : AssetUpdate) :
    (u.hasSetParts = true → (¬ ∃ a ∈ db, a.id = id ∧ a.deletedAt = none) →
      (UpdateAsset db now id u).1 = .error .notFound ∧
      (UpdateAsset db now id u).2 = db) ∧
    ((¬ ∃ a ∈ db, a.id = id) →
      (UpdateAsset db now id u).1 = .error .notFound ∧
      (UpdateAsset db now id u).2 = db) ∧
    (u.hasSetParts = false → ∀ a, getAssetByID db id = .ok a →
      (UpdateAsset db now id u).1 = .ok a ∧ (UpdateAsset db now id u).2 = db) ∧
    (∀ e, (UpdateAsset db now id u).1 = .error e →
      (UpdateAsset db now id u).2 = db) := by
  have hnolive : (¬ ∃ a ∈ db, a.id = id ∧ a.deletedAt = none) →
      db.any (fun a => a.id == id && a.deletedAt.isNone) = false := by
    intro hno
    rw [List.any_eq_false]
    intro b hb
    by_cases h1 : b.id = id
    · by_cases h2 : b.deletedAt = none
      · exact absurd ⟨b, hb, h1, h2⟩ hno
      · simp [h2]
    · simp [h1]
  refine ⟨?_, ?_, ?_, ?_⟩
  · intro hset hno
    rw [updateAsset_set_no_live db now id u hset (hnolive hno)]
    exact ⟨rfl, rfl⟩
  · intro hno
    cases hset : u.hasSetParts with
    | true =>
      rw [updateAsset_set_no_live db now id u hset
        (hnolive (fun ⟨a, ha, h1, _⟩ => hno ⟨a, ha, h1⟩))]
      exact ⟨rfl, rfl⟩
    | false =>
      rw [updateAsset_no_set db now id u hset]
      have hfind : db.find? (fun a => a.id == id) = none := by
        rw [List.find?_eq_none]
        intro b hb
        simp only [beq_iff_eq]
        intro h1
        exact hno ⟨b, hb, of_decide_eq_true (by simpa using h1)⟩
      rw [getAssetByID, hfind]
      exact ⟨rfl, rfl⟩
  · intro hset a hget
    rw [updateAsset_no_set db now id u hset, hget]
    exact ⟨rfl, rfl⟩
  · intro e
    cases hset : u.hasSetParts with
    | false =>
      rw [updateAsset_no_set db now id u hset]
      cases hget : getAssetByID db id with
      | ok a => intro h; simp at h
      | error e2 => intro _; rfl
    | true =>
      cases hany : db.any (fun a => a.id == id && a.deletedAt.isNone) with
      | false =>
        rw [updateAsset_set_no_live db now id u hset hany]
        intro _; rfl
      | true =>
        rw [updateAsset_set_live db now id u hset hany]
        cases hget : getAssetByID (updStep2 db now id u) id with
        | ok a => intro h; simp at h
        | error e2 => intro _; rfl

/-- C6 witness: a field-carrying update on a soft-deleted id and any
update on an absent id both report not-found. -/
theorem updateAsset_notFound_behavior_witness :
    (UpdateAsset [assetDelFix] 9 2 sameTitleUpdateFix).1 = .error .notFound ∧
    (UpdateAsset [assetFix] 9 5 emptyUpdateFix).1 = .error .notFound :=
  ⟨((updateAsset_notFound_behavior [assetDelFix] 9 2 sameTitleUpdateFix).1
      (by decide) (by decide)).1,
   ((updateAsset_notFound_behavior [assetFix] 9 5 emptyUpdateFix).2.1
      (by decide)).1⟩

/-! ## C7: updatedAt bump on update -/

theorem updStep1_bumps (db : List Asset) (now id : Nat) (u : AssetUpdate) :
    ∀ b ∈ updStep1 db now id u, b.id = id → b.deletedAt = none →
      b.updatedAt = now := by
  intro b hb hbid hbdel
  obtain ⟨c, hc, hcb⟩ := List.mem_map.mp hb
  by_cases hcond : (c.id == id && c.deletedAt.isNone) = true
  · rw [if_pos hcond] at hcb
    rw [← hcb]
    rfl
  · rw [if_neg hcond] at hcb
    subst hcb
    exact absurd (by simp [hbid, hbdel]) hcond

theorem replaceTags_bumps (db : List Asset) (now id : Nat)
    (tags : List String) (tagText : String) :
    ∀ b ∈ replaceTags db now id tags tagText, b.id = id →
      b.updatedAt = now := by
  intro b hb hbid
  obtain ⟨c, hc, hcb⟩ := List.mem_map.mp hb
  by_cases hcond : (c.id == id) = true
  · rw [if_pos hcond] at hcb
    rw [← hcb]
  · rw [if_neg hcond] at hcb
    subst hcb
    exact absurd (by simp [hbid]) hcond

theorem updStep2_bumps (db : List Asset) (now id : Nat) (u : AssetUpdate) :
    ∀ b ∈ updStep2 db now id u, b.id = id → b.deletedAt = none →
      b.updatedAt = now := by
  unfold updStep2
  cases htags : u.tags with
  | none => exact updStep1_bumps db now id u
  | some ts =>
    intro b hb hbid _
    exact replaceTags_bumps _ now id _ _ b hb hbid

theorem updStep1_mem_id (db : List Asset) (now id : Nat) (u : AssetUpdate)
    (a : Asset) (ha : a ∈ db) :
    ∃ b ∈ updStep1 db now id u, b.id = a.id := by
  refine ⟨_, List.mem_map_of_mem _ ha, ?_⟩
  by_cases hcond : (a.id == id && a.deletedAt.isNone) = true
  · rw [if_pos hcond]
    rfl
  · rw [if_neg hcond]

theorem replaceTags_mem_id (db : List Asset) (now id : Nat)
    (tags : List String) (tagText : String) (b : Asset) (hb : b ∈ db) :
    ∃ c ∈ replaceTags db now id tags tagText, c.id = b.id := by
  refine ⟨_, List.mem_map_of_mem _ hb, ?_⟩
  by_cases hcond : (b.id == id) = true
  · rw [if_pos hcond]
  · rw [if_neg hcond]

theorem updStep2_mem_id (db : List Asset) (now id : Nat) (u : AssetUpdate)
    (a : Asset) (ha : a ∈ db) :
    ∃ b ∈ updStep2 db now id u, b.id = a.id := by
  unfold updStep2
  cases htags : u.tags with
  | none => exact updStep1_mem_id db now id u a ha
  | some ts =>
    obtain ⟨b1, hb1, hb1id⟩ := updStep1_mem_id db now id u a ha
    obtain ⟨c, hc, hcid⟩ := replaceTags_mem_id _ now id _ _ b1 hb1
    exact ⟨c, hc, by rw [hcid, hb1id]⟩

/-- C7 counterexample: the claim says an update supplying values identical
to the current state leaves `updatedAt` unchanged; on the code, supplying
the current title verbatim still runs the `UPDATE` with
`updated_at = NOW()`, bumping the timestamp from 0 to 1. -/
theorem updateAsset_sameValue_counterexample :
    sameTitleUpdateFix.title = some assetFix.title ∧
    assetFix.updatedAt = 0 ∧
    (UpdateAsset [assetFix] 1 1 sameTitleUpdateFix).1 =
      .ok { assetFix with updatedAt := 1 } := by
  refine ⟨rfl, rfl, by decide⟩

/-- C7 (amended): `updatedAt` is stamped with the current time whenever
the payload supplies at least one field or a tag list and a live row
matches the id — whether or not the supplied values differ from the
current state; only a payload supplying nothing leaves the table (and so
`updatedAt`) unchanged. -/
theorem updateAsset_updatedAt_amended (db : List Asset) (now id : Nat)
    (u : AssetUpdate) :
    (u.hasSetParts = false → (UpdateAsset db now id u).2 = db) ∧
    (u.hasSetParts = true → (∃ a ∈ db, a.id = id ∧ a.deletedAt = none) →
      ∀ b ∈ (UpdateAsset db now id u).2, b.id = id → b.deletedAt = none →
        b.updatedAt = now) := by
  constructor
  · intro hset
    rw [updateAsset_no_set db now id u hset]
    cases hget : getAssetByID db id with
    | ok a => rfl
    | error e => rfl
  · rintro hset ⟨a, ha, haid, hadel⟩
    have hany : db.any (fun x => x.id == id && x.deletedAt.isNone) = true := by
      rw [List.any_eq_true]
      exact ⟨a, ha, by simp [haid, hadel]⟩
    rw [updateAsset_set_live db now id u hset hany]
    obtain ⟨c, hc, hcid⟩ := updStep2_mem_id db now id u a ha
    have hfindSome : (List.find? (fun x => x.id == id)
        (updStep2 db now id u)).isSome := by
      rw [List.find?_isSome]
      exact ⟨c, hc, by simp [hcid, haid]⟩
    cases hfind : List.find? (fun x => x.id == id) (updStep2 db now id u) with
    | none =>
      rw [hfind] at hfindSome
      simp at hfindSome
    | some b0 =>
      simp only [getAssetByID, hfind]
      exact updStep2_bumps db now id u

/-- C7 witness: supplying the unchanged title to the live fixture at time
9 stamps the stored row's `updatedAt` to 9. -/
theorem updateAsset_updatedAt_amended_witness :
    ({ assetFix with updatedAt := 9 } : Asset).updatedAt = 9 :=
  (updateAsset_updatedAt_amended [assetFix] 9 1 sameTitleUpdateFix).2
    (by decide) ⟨assetFix, by simp, rfl, rfl⟩
    { assetFix with updatedAt := 9 } (by decide) rfl rfl

/-! ## C5: normalizeSet characterization -/

/-- C5: `NormalizeTags` returns the strictly sorted (hence duplicate-free)
list whose members are exactly the non-empty `NormalizeTag` images of the
input, is invariant under permutations of the input, and `TagText` is that
list joined by single spaces. -/
theorem normalizeTags_spec (tags : List String) :
    (NormalizeTags tags).Sorted (· < ·) ∧
    (∀ a, a ∈ NormalizeTags tags ↔ a ≠ "" ∧ a ∈ tags.map NormalizeTag) ∧
    (∀ tags2, tags.Perm tags2 → NormalizeTags tags = NormalizeTags tags2) ∧
    TagText tags = String.intercalate " " (NormalizeTags tags) := by
  refine ⟨?_, ?_, ?_, rfl⟩
  · exact (List.sorted_insertionSort _ _).lt_of_le
      ((List.perm_insertionSort _ _).nodup_iff.mpr (List.nodup_dedup _))
  · intro a
    rw [NormalizeTags, (List.perm_insertionSort _ _).mem_iff, List.mem_dedup,
      List.mem_filter]
    constructor
    · rintro ⟨h1, h2⟩
      exact ⟨by simpa using h2, h1⟩
    · rintro ⟨h1, h2⟩
      exact ⟨h2, by simpa using h1⟩
  · intro tags2 hperm
    have h1 : ((tags.map NormalizeTag).filter (fun t => t ≠ "")).dedup.Perm
        ((tags2.map NormalizeTag).filter (fun t => t ≠ "")).dedup :=
      ((hperm.map NormalizeTag).filter _).dedup
    exact List.eq_of_perm_of_sorted
      ((List.perm_insertionSort _ _).trans
        (h1.trans (List.perm_insertionSort _ _).symm))
      (List.sorted_insertionSort _ _) (List.sorted_insertionSort _ _)

/-- C5 witness: the normalized set is the same for a permuted input. -/
theorem normalizeTags_spec_witness :
    NormalizeTags ["A", "a", " a "] = NormalizeTags ["a", " a ", "A"] :=
  (normalizeTags_spec ["A", "a", " a "]).2.2.1 ["a", " a ", "A"] (by decide)

/-! ## C9: idempotence of NormalizeTag -/

theorem toNat_ofNat_valid (n : Nat) (h : n.isValidChar) :
    (Char.ofNat n).toNat = n := by
  simp [Char.ofNat, h, Char.ofNatAux, Char.toNat, UInt32.toNat,
    BitVec.toNat_ofNatLt]

theorem toLowerChar_idem (c : Char) :
    toLowerChar (toLowerChar c) = toLowerChar c := by
  unfold toLowerChar
  by_cases h : 65 ≤ c.toNat ∧ c.toNat ≤ 90
  · rw [if_pos h]
    rw [if_neg]
    rw [toNat_ofNat_valid _ (Or.inl (by omega))]
    omega
  · rw [if_neg h, if_neg h]

theorem isSpaceChar_toLowerChar (c : Char) :
    isSpaceChar (toLowerChar c) = isSpaceChar c := by
  unfold isSpaceChar
  have ht : (toLowerChar c).toNat =
      if 65 ≤ c.toNat ∧ c.toNat ≤ 90 then c.toNat + 32 else c.toNat := by
    unfold toLowerChar
    by_cases h : 65 ≤ c.toNat ∧ c.toNat ≤ 90
    · rw [if_pos h, if_pos h, toNat_ofNat_valid _ (Or.inl (by omega))]
    · rw [if_neg h, if_neg h]
  rw [ht]
  by_cases h : 65 ≤ c.toNat ∧ c.toNat ≤ 90
  · rw [if_pos h]
    trans false
    · simp only [Bool.or_eq_false_iff, decide_eq_false_iff_not]
      omega
    · symm
      simp only [Bool.or_eq_false_iff, decide_eq_false_iff_not]
      omega
  · rw [if_neg h]

theorem toLowerChar_space : toLowerChar ' ' = ' ' := rfl


theorem joinSpace_nil : joinSpace [] = [] := rfl

theorem joinSpace_single (w : List Char) : joinSpace [w] = w := rfl

theorem joinSpace_cons2 (w w2 : List Char) (ws : List (List Char)) :
    joinSpace (w :: w2 :: ws) = w ++ ' ' :: joinSpace (w2 :: ws) := rfl

theorem splitSp_nonspace (l : List Char) :
    ∀ w ∈ splitSp l, ∀ c ∈ w, isSpaceChar c = false := by
  induction l with
  | nil =>
    intro w hw
    simp [splitSp] at hw
  | cons a l ih =>
    intro w hw c hc
    rw [splitSp] at hw
    by_cases ha : isSpaceChar a = true
    · rw [if_pos ha] at hw
      rcases List.mem_cons.mp hw with h | h
      · subst h
        simp at hc
      · exact ih w h c hc
    · rw [if_neg ha] at hw
      cases hsp : splitSp l with
      | nil =>
        rw [hsp] at hw
        simp at hw
        subst hw
        simp at hc
        subst hc
        simpa using ha
      | cons w0 ws0 =>
        rw [hsp] at hw
        rcases List.mem_cons.mp hw with h | h
        · subst h
          rcases List.mem_cons.mp hc with h2 | h2
          · subst h2
            simpa using ha
          · exact ih w0 (by rw [hsp]; exact List.mem_cons_self _ _) c h2
        · exact ih w (by rw [hsp]; exact List.mem_cons_of_mem _ h) c hc

theorem fields_words (l : List Char) :
    ∀ w ∈ fields l, w ≠ [] ∧ ∀ c ∈ w, isSpaceChar c = false := by
  intro w hw
  rw [fields, List.mem_filter] at hw
  refine ⟨?_, splitSp_nonspace l w hw.1⟩
  have := hw.2
  simpa [List.isEmpty_iff] using this

theorem splitSp_word (w : List Char) (hne : w ≠ [])
    (hns : ∀ c ∈ w, isSpaceChar c = false) : splitSp w = [w] := by
  induction w with
  | nil => simp at hne
  | cons a t ih =>
    rw [splitSp, if_neg (by simp [hns a (List.mem_cons_self a t)])]
    cases t with
    | nil => rfl
    | cons b t2 =>
      rw [ih (by simp) (fun c hc => hns c (List.mem_cons_of_mem _ hc))]

theorem splitSp_word_append (w rest : List Char) (hne : w ≠ [])
    (hns : ∀ c ∈ w, isSpaceChar c = false) :
    splitSp (w ++ ' ' :: rest) = w :: splitSp rest := by
  induction w with
  | nil => simp at hne
  | cons a t ih =>
    rw [List.cons_append, splitSp,
      if_neg (by simp [hns a (List.mem_cons_self a t)])]
    cases t with
    | nil =>
      rw [List.nil_append, splitSp, if_pos (by decide)]
    | cons b t2 =>
      rw [ih (by simp) (fun c hc => hns c (List.mem_cons_of_mem _ hc))]

theorem fields_joinSpace (ws : List (List Char)) (hne : ws ≠ [])
    (hw : ∀ w ∈ ws, w ≠ [] ∧ ∀ c ∈ w, isSpaceChar c = false) :
    fields (joinSpace ws) = ws := by
  induction ws with
  | nil => simp at hne
  | cons w ws2 ih =>
    obtain ⟨hwne, hwns⟩ := hw w (List.mem_cons_self _ _)
    cases ws2 with
    | nil =>
      rw [joinSpace_single, fields, splitSp_word w hwne hwns]
      simp [List.isEmpty_iff, hwne]
    | cons w2 ws3 =>
      rw [joinSpace_cons2, fields, splitSp_word_append _ _ hwne hwns]
      have hrest := ih (by simp)
        (fun x hx => hw x (List.mem_cons_of_mem _ hx))
      rw [fields] at hrest
      simp only [List.filter_cons]
      rw [if_pos (by simpa [List.isEmpty_iff] using hwne)]
      rw [hrest]

theorem map_joinSpace (f : Char → Char) (hf : f ' ' = ' ')
    (ws : List (List Char)) :
    (joinSpace ws).map f = joinSpace (ws.map (fun w => w.map f)) := by
  induction ws with
  | nil => rfl
  | cons w ws2 ih =>
    cases ws2 with
    | nil => rfl
    | cons w2 ws3 =>
      rw [joinSpace_cons2, List.map_append, List.map_cons, hf, ih]
      rfl

theorem joinSpace_cons_head (c : Char) (wt : List Char)
    (ws2 : List (List Char)) :
    ∃ t, joinSpace ((c :: wt) :: ws2) = c :: t := by
  cases ws2 with
  | nil => exact ⟨wt, rfl⟩
  | cons w2 ws3 => exact ⟨wt ++ ' ' :: joinSpace (w2 :: ws3), rfl⟩

theorem joinSpace_reverse_head (ws : List (List Char)) (hne : ws ≠ [])
    (hw : ∀ w ∈ ws, w ≠ [] ∧ ∀ c ∈ w, isSpaceChar c = false) :
    ∃ c t, (joinSpace ws).reverse = c :: t ∧ isSpaceChar c = false := by
  induction ws with
  | nil => simp at hne
  | cons w ws2 ih =>
    obtain ⟨hwne, hwns⟩ := hw w (List.mem_cons_self _ _)
    cases ws2 with
    | nil =>
      cases hrev : w.reverse with
      | nil =>
        rw [List.reverse_eq_nil_iff] at hrev
        exact absurd hrev hwne
      | cons c2 t2 =>
        refine ⟨c2, t2, by rw [joinSpace_single, hrev], ?_⟩
        refine hwns c2 (List.mem_reverse.mp ?_)
        rw [hrev]
        exact List.mem_cons_self _ _
    | cons w2 ws3 =>
      obtain ⟨c, t, hrev, hcns⟩ := ih (by simp)
        (fun x hx => hw x (List.mem_cons_of_mem _ hx))
      refine ⟨c, t ++ ' ' :: w.reverse, ?_, hcns⟩
      rw [joinSpace_cons2, List.reverse_append, List.reverse_cons, hrev]
      simp



theorem trimSpace_eq_self (l : List Char)
    (h1 : ∃ c t, l = c :: t ∧ isSpaceChar c = false)
    (h2 : ∃ c t, l.reverse = c :: t ∧ isSpaceChar c = false) :
    trimSpace l = l := by
  obtain ⟨c, t, hl, hc⟩ := h1
  obtain ⟨d, s, hr, hd⟩ := h2
  unfold trimSpace
  rw [hl, List.dropWhile_cons, if_neg (by simp [hc]), ← hl]
  rw [hr, List.dropWhile_cons, if_neg (by simp [hd]), ← hr,
    List.reverse_reverse]

theorem fields_cons_ne_nil (c : Char) (t : List Char)
    (h : isSpaceChar c = false) : fields (c :: t) ≠ [] := by
  rw [fields, splitSp, if_neg (by simp [h])]
  cases hsp : splitSp t with
  | nil => simp
  | cons w ws => simp

theorem dropWhile_head_false (p : Char → Bool) (l : List Char) (c : Char)
    (t : List Char) (h : l.dropWhile p = c :: t) : p c = false := by
  induction l with
  | nil => simp at h
  | cons a l ih =>
    rw [List.dropWhile_cons] at h
    by_cases hp : p a = true
    · rw [if_pos hp] at h
      exact ih h
    · rw [if_neg hp] at h
      cases h
      simpa using hp

theorem trimSpace_head (l : List Char) (h : trimSpace l ≠ []) :
    ∃ c t, trimSpace l = c :: t ∧ isSpaceChar c = false := by
  unfold trimSpace at h ⊢
  have hpre : ((l.dropWhile isSpaceChar).reverse.dropWhile isSpaceChar).reverse
      <+: l.dropWhile isSpaceChar := by
    have hsuf : (l.dropWhile isSpaceChar).reverse.dropWhile isSpaceChar <:+
        (l.dropWhile isSpaceChar).reverse := List.dropWhile_suffix _
    have h2 := List.reverse_prefix.mpr hsuf
    simpa using h2
  obtain ⟨s, hs⟩ := hpre
  cases htr : ((l.dropWhile isSpaceChar).reverse.dropWhile isSpaceChar).reverse
    with
  | nil => exact absurd htr h
  | cons c t =>
    refine ⟨c, t, rfl, ?_⟩
    rw [htr] at hs
    have hmc : l.dropWhile isSpaceChar = c :: (t ++ s) := by
      rw [← hs]
      rfl
    exact dropWhile_head_false isSpaceChar l c (t ++ s) hmc

theorem normTagChars_idem (l : List Char) :
    normTagChars (normTagChars l) = normTagChars l := by
  by_cases htr : (trimSpace l).isEmpty
  · have h0 : normTagChars l = [] := by rw [normTagChars, if_pos htr]
    rw [h0]
    rfl
  · have h1 : normTagChars l =
        (joinSpace (fields (trimSpace l))).map toLowerChar := by
      rw [normTagChars, if_neg htr]
    have hwords := fields_words (trimSpace l)
    have hwsne : fields (trimSpace l) ≠ [] := by
      obtain ⟨c, t, hct, hc⟩ := trimSpace_head l
        (by simpa [List.isEmpty_iff] using htr)
      rw [hct]
      exact fields_cons_ne_nil c t hc
    have hy : normTagChars l =
        joinSpace ((fields (trimSpace l)).map (fun w => w.map toLowerChar)) := by
      rw [h1, map_joinSpace toLowerChar toLowerChar_space]
    have hw2props : ∀ w ∈ (fields (trimSpace l)).map (fun w => w.map toLowerChar),
        w ≠ [] ∧ ∀ c ∈ w, isSpaceChar c = false := by
      intro w hw
      obtain ⟨w0, hw0, hw0w⟩ := List.mem_map.mp hw
      obtain ⟨h0ne, h0ns⟩ := hwords w0 hw0
      subst hw0w
      refine ⟨by simpa using h0ne, ?_⟩
      intro c hc
      obtain ⟨c0, hc0, hc0c⟩ := List.mem_map.mp hc
      subst hc0c
      rw [isSpaceChar_toLowerChar]
      exact h0ns c0 hc0
    have hws2ne : (fields (trimSpace l)).map (fun w => w.map toLowerChar) ≠ [] := by
      simpa using hwsne
    obtain ⟨w1, ws3, hws2eq⟩ := List.exists_cons_of_ne_nil hws2ne
    obtain ⟨hw1ne, hw1ns⟩ := hw2props w1 (by rw [hws2eq]; exact List.mem_cons_self _ _)
    obtain ⟨c1, w1t, hw1eq⟩ := List.exists_cons_of_ne_nil hw1ne
    obtain ⟨t1, hhead⟩ := joinSpace_cons_head c1 w1t ws3
    obtain ⟨c2, t2, hrev, hc2⟩ := joinSpace_reverse_head _ hws2ne hw2props
    have hheadfull : joinSpace ((fields (trimSpace l)).map (fun w => w.map toLowerChar)) = c1 :: t1 := by
      rw [hws2eq, hw1eq]
      exact hhead
    have htrim : trimSpace (joinSpace ((fields (trimSpace l)).map (fun w => w.map toLowerChar))) =
        joinSpace ((fields (trimSpace l)).map (fun w => w.map toLowerChar)) :=
      trimSpace_eq_self _
        ⟨c1, t1, hheadfull, hw1ns c1 (by rw [hw1eq]; exact List.mem_cons_self _ _)⟩
        ⟨c2, t2, hrev, hc2⟩
    have hyne : joinSpace ((fields (trimSpace l)).map (fun w => w.map toLowerChar)) ≠ [] := by
      rw [hheadfull]
      simp
    rw [hy]
    simp only [normTagChars, htrim]
    rw [if_neg (by simpa [List.isEmpty_iff] using hyne)]
    rw [fields_joinSpace _ hws2ne hw2props]
    rw [← map_joinSpace toLowerChar toLowerChar_space]
    rw [List.map_map]
    exact List.map_congr_left (fun a _ => toLowerChar_idem a)

/-- C9: `NormalizeTag` is idempotent — normalizing an already-normalized
tag returns it unchanged. -/
theorem normalizeTag_idem (x : String) :
    NormalizeTag (NormalizeTag x) = NormalizeTag x := by
  unfold NormalizeTag
  exact congrArg String.mk (normTagChars_idem x.data)


end Ganache
